import Mathlib

/-!
Shallow embedding of the PyMuPDF parsing service core
(`src/app/parser/pdf_parser.py`, class `PymupdfParser`) together with
proofs about the behaviour the specification describes.

Coordinates are modelled as unbounded integers (the code works on
`fitz.IRect`, integer rectangles).  The PDF decoding oracle (text
extraction inside a rectangle) is modelled as an explicit function
argument `extract : IRect → String`; the code always applies Python's
`str.strip` to the oracle result, modelled by `pyStrip` below.
-/

/-- Python's `str.strip()` with no argument: remove leading and
trailing whitespace. -/
def pyStrip (s : String) : String :=
  String.mk (((s.data.dropWhile Char.isWhitespace).reverse.dropWhile
    Char.isWhitespace).reverse)

/-- Integer rectangle, mirroring `fitz.IRect`: corners `(x0, y0)` (top
left) and `(x1, y1)` (bottom right). -/
structure IRect where
  x0 : Int
  y0 : Int
  x1 : Int
  y1 : Int
deriving DecidableEq, Repr

/-- Model of `fitz.Rect.is_empty`: a rectangle is empty when its width or height
is not positive. -/
def IRect.isEmpty (r : IRect) : Bool :=
  r.x1 ≤ r.x0 || r.y1 ≤ r.y0

/-- Rectangle intersection, mirroring `fitz`'s `&` operator
(componentwise max of the top-left corner, min of the bottom-right). -/
def IRect.inter (a b : IRect) : IRect :=
  ⟨max a.x0 b.x0, max a.y0 b.y0, min a.x1 b.x1, min a.y1 b.y1⟩

/-- Bounding union, mirroring `fitz`'s `|` operator. -/
def IRect.union (a b : IRect) : IRect :=
  ⟨min a.x0 b.x0, min a.y0 b.y0, max a.x1 b.x1, max a.y1 b.y1⟩

/-- Model of `fitz` rectangle containment (`inner in outer` in Python): the inner
rectangle is valid and lies inside the outer one. -/
def IRect.containsRect (outer inner : IRect) : Bool :=
  outer.x0 ≤ inner.x0 && inner.x0 ≤ inner.x1 && inner.x1 ≤ outer.x1 &&
  outer.y0 ≤ inner.y0 && inner.y0 ≤ inner.y1 && inner.y1 ≤ outer.y1

/-- Model of `fitz.EMPTY_IRECT()`: the canonical empty integer rectangle
`IRect(FZ_MAX_INF_RECT, FZ_MAX_INF_RECT, FZ_MIN_INF_RECT, FZ_MIN_INF_RECT)`. -/
def EMPTY_IRECT : IRect :=
  ⟨2147483520, 2147483520, -2147483648, -2147483648⟩

/-- Content kind tag attached to an emitted region (`"text"` /
`"table"` in the Python code). -/
inductive Kind where
  | text
  | table
deriving DecidableEq, Repr

/-- Model of `PymupdfParser.should_merge_tables`: two table rectangles merge when
they are horizontally or vertically aligned within the tolerance and
their horizontal or vertical edge distance is below the tolerance. -/
def shouldMergeTables (tolerance : Int) (bbox1 bbox2 : IRect) : Bool :=
  let horizontallyAligned :=
    decide (|bbox1.y0 - bbox2.y0| < tolerance) &&
    decide (|bbox1.y1 - bbox2.y1| < tolerance)
  let verticallyAligned :=
    decide (|bbox1.x0 - bbox2.x0| < tolerance) &&
    decide (|bbox1.x1 - bbox2.x1| < tolerance)
  let horizontalDistance := min |bbox1.x1 - bbox2.x0| |bbox2.x1 - bbox1.x0|
  let verticalDistance := min |bbox1.y1 - bbox2.y0| |bbox2.y1 - bbox1.y0|
  let isClose :=
    decide (horizontalDistance < tolerance) || decide (verticalDistance < tolerance)
  (horizontallyAligned || verticallyAligned) && isClose

/-- Loop of `PymupdfParser.merge_tables`: scan the remaining rectangles,
growing the current accumulating group by bounding union whenever
`should_merge_tables` holds, otherwise closing the group. -/
def mergeTablesLoop (tolerance : Int) (currentGroup : IRect) :
    List IRect → List IRect
  | [] => [currentGroup]
  | bbox :: rest =>
    if shouldMergeTables tolerance currentGroup bbox then
      mergeTablesLoop tolerance
        ⟨min currentGroup.x0 bbox.x0, min currentGroup.y0 bbox.y0,
         max currentGroup.x1 bbox.x1, max currentGroup.y1 bbox.y1⟩ rest
    else
      currentGroup :: mergeTablesLoop tolerance bbox rest

/-- Model of `PymupdfParser.merge_tables`. -/
def mergeTables (tolerance : Int) : List IRect → List IRect
  | [] => []
  | bbox :: rest => mergeTablesLoop tolerance bbox rest

/-- Model of `PymupdfParser.split_bbox_by_table`: slice a text rectangle above
and below an intersecting table rectangle, keeping a slice only when it
is geometrically non-degenerate in the strict sense used by the code
and the (trimmed) extracted text inside it is non-empty. -/
def splitBboxByTable (extract : IRect → String) (textBbox tableBbox : IRect) :
    Option IRect × Option IRect :=
  let bboxAbove :=
    if textBbox.y0 < tableBbox.y0 then
      let potential : IRect := ⟨textBbox.x0, textBbox.y0, textBbox.x1, tableBbox.y0⟩
      if pyStrip (extract potential) ≠ "" then some potential else none
    else none
  let bboxBelow :=
    if textBbox.y1 > tableBbox.y1 then
      let potential : IRect := ⟨textBbox.x0, tableBbox.y1, textBbox.x1, textBbox.y1⟩
      if pyStrip (extract potential) ≠ "" then some potential else none
    else none
  (bboxAbove, bboxBelow)

/-- State of the `get_ordered_content` loop: the `ordered_content` list
built so far and the `processed_tables` set (modelled as a list of the
table rectangles already emitted). -/
structure OCState where
  ordered : List (IRect × Kind)
  processed : List IRect
deriving Repr

/-- Append a text region (`ordered_content.append((bbox, "text"))`). -/
def emitText (st : OCState) (r : IRect) : OCState :=
  { st with ordered := st.ordered ++ [(r, Kind.text)] }

/-- Append a table region unless an identical rectangle was already
emitted for this page (the `processed_tables` guard). -/
def emitTable (st : OCState) (t : IRect) : OCState :=
  if t ∈ st.processed then st
  else { ordered := st.ordered ++ [(t, Kind.table)], processed := st.processed ++ [t] }

/-- Append the optional above-slice as a text region when present. -/
def emitAbove (st : OCState) : Option IRect → OCState
  | some a => emitText st a
  | none => st

/-- Inner loop of `get_ordered_content` over `intersecting_tables[1:]`:
while a current (below) rectangle remains, split it around the next
table and emit the pieces. -/
def tablesLoop (extract : IRect → String) :
    OCState → Option IRect → List IRect → OCState × Option IRect
  | st, current, [] => (st, current)
  | st, current, t :: rest =>
    match current with
    | none => tablesLoop extract st none rest
    | some cb =>
      let s := splitBboxByTable extract cb t
      tablesLoop extract (emitTable (emitAbove st s.1) t) s.2 rest

/-- Sort relation used on intersecting tables
(`intersecting_tables.sort(key=lambda x: x.y0)`). -/
def tableTopLe (a b : IRect) : Prop := a.y0 ≤ b.y0

instance : DecidableRel tableTopLe := fun a b => Int.decLe a.y0 b.y0

instance : IsTotal IRect tableTopLe := ⟨fun a b => Int.le_total a.y0 b.y0⟩

instance : IsTrans IRect tableTopLe := ⟨fun _ _ _ h1 h2 => le_trans h1 h2⟩

/-- Body of `get_ordered_content` for one column rectangle: collect the
merged tables intersecting it; if none, emit it whole as text,
otherwise split it around the tables sorted by top coordinate. -/
def processColumn (extract : IRect → String) (mergedTables : List IRect)
    (st : OCState) (textBbox : IRect) : OCState :=
  let intersecting := mergedTables.filter (fun t => !(textBbox.inter t).isEmpty)
  match List.insertionSort tableTopLe intersecting with
  | [] => emitText st textBbox
  | t0 :: rest =>
    let s := splitBboxByTable extract textBbox t0
    let st1 := emitTable (emitAbove st s.1) t0
    let step := tablesLoop extract st1 s.2 rest
    match step.2 with
    | some cb => emitText step.1 cb
    | none => step.1

/-- Model of `PymupdfParser.get_ordered_content`, parameterised by the column
rectangles (`column_boxes` output), the merged table rectangles and the
text-extraction oracle. -/
def getOrderedContent (extract : IRect → String)
    (textBboxes mergedTables : List IRect) : List (IRect × Kind) :=
  (textBboxes.foldl (processColumn extract mergedTables) ⟨[], []⟩).ordered

/-- Loop of `PymupdfParser.get_page_segments`: `k` is the number of loop
iterations still allowed (`max_processors - i`), `i` the current index
and `startPage` the running start page; after appending a segment the
loop breaks as soon as every page is assigned. -/
def segmentsGo (chunkSize remainder numPages : Nat) :
    Nat → Nat → Nat → List (Nat × Nat)
  | 0, _, _ => []
  | k + 1, i, startPage =>
    let extra := if i < remainder then 1 else 0
    let endPage := min (startPage + chunkSize + extra) numPages
    (startPage, endPage) ::
      (if numPages ≤ endPage then []
       else segmentsGo chunkSize remainder numPages k (i + 1) endPage)

/-- Model of `PymupdfParser.get_page_segments`: raises `ValueError` (modelled by
`Except.error`) when `max_processors ≤ 0`, otherwise divides the pages
into contiguous chunks of size `num_pages div max_processors`, the
first `num_pages mod max_processors` of them one page larger. -/
def getPageSegments (maxProcessors : Int) (numPages : Nat) :
    Except String (List (Nat × Nat)) :=
  if maxProcessors ≤ 0 then
    Except.error "Number of processors must be greater than 0"
  else
    let m := maxProcessors.toNat
    Except.ok (segmentsGo (numPages / m) (numPages % m) numPages m 0 0)

/-- The `Element` objects returned by `PymupdfParser.parse` (the fields
relevant to the core: extracted text, category, 1-based page span). -/
structure Element where
  text : String
  category : Kind
  startPage : Nat
  endPage : Nat
deriving DecidableEq, Repr

/-- Sort relation used on the collected per-page results
(`results.sort(key=lambda x: x[0])`). -/
def pageLe (a b : Nat × List (IRect × Kind)) : Prop := a.1 ≤ b.1

instance : DecidableRel pageLe := fun a b => Nat.decLe a.1 b.1

instance : IsTotal (Nat × List (IRect × Kind)) pageLe :=
  ⟨fun a b => Nat.le_total a.1 b.1⟩

instance : IsTrans (Nat × List (IRect × Kind)) pageLe :=
  ⟨fun _ _ _ h1 h2 => Nat.le_trans h1 h2⟩

/-- Strict version of `pageLe`, used to show a stable sort of results
with pairwise-distinct page indices is unique. -/
def pageLt (a b : Nat × List (IRect × Kind)) : Prop := a.1 < b.1

instance : IsAntisymm (Nat × List (IRect × Kind)) pageLt :=
  ⟨fun _ _ h1 h2 => absurd (Nat.lt_trans h1 h2) (Nat.lt_irrefl _)⟩

/-- Model of `results.sort(key=lambda x: x[0])` in `parse`: Python's stable sort
by page index, modelled by the (stable) insertion sort. -/
def sortResults (results : List (Nat × List (IRect × Kind))) :
    List (Nat × List (IRect × Kind)) :=
  List.insertionSort pageLe results

/-- Element construction in `parse`: sort the per-page `(page_num,
content)` pairs and flatten them into `Element` values, extracting and
trimming each region's text and setting both page fields to the 1-based
page number. -/
def pageElems (extract : Nat → IRect → String)
    (pr : Nat × List (IRect × Kind)) : List Element :=
  pr.2.map fun bc => ⟨pyStrip (extract pr.1 bc.1), bc.2, pr.1 + 1, pr.1 + 1⟩

def elementsOf (extract : Nat → IRect → String)
    (results : List (Nat × List (IRect × Kind))) : List Element :=
  (sortResults results).flatMap (pageElems extract)

/-- One text line of a raw block, as delivered by
`page.get_text("dict")`: writing direction of the line, its bounding
box, and the span texts (`s["text"]` for each span). -/
structure Line where
  dir : Int × Int
  bbox : IRect
  spans : List String
deriving DecidableEq, Repr

/-- One raw text block: its bounding box and its lines. -/
structure Block where
  bbox : IRect
  lines : List Line
deriving DecidableEq, Repr

/-- Model of `"".join([s["text"].strip() for s in line["spans"]])`. -/
def lineText (ln : Line) : String :=
  String.join (ln.spans.map pyStrip)

/-- Helper `in_bbox` of `column_boxes`: 1-based index of the first
rectangle in the list containing `bb`, or `0` when none does. -/
def inBbox (bb : IRect) (bboxes : List IRect) : Nat :=
  match bboxes.findIdx? (fun bbox => bbox.containsRect bb) with
  | some i => i + 1
  | none => 0

/-- Helper `intersects_bboxes` of `column_boxes`. -/
def intersectsBboxes (bb : IRect) (bboxes : List IRect) : Bool :=
  bboxes.any (fun bbox => !(bb.inter bbox).isEmpty)

/-- Helper `can_extend` of `column_boxes`, over a bbox list that may
contain `None` entries: `temp` is acceptable when it crosses no
vertical-text rectangle and meets no list entry other than `bb`
itself. -/
def canExtend (vertBboxes : List IRect) (temp bb : IRect)
    (bboxlist : List (Option IRect)) : Bool :=
  bboxlist.all fun b =>
    !(intersectsBboxes temp vertBboxes) &&
      (match b with
       | none => true
       | some br => br == bb || (temp.inter br).isEmpty)

/-- One iteration of the `extend_right` loop of `column_boxes`: try to
widen rectangle `i` to the page width unless it sits inside a path or
image rectangle, would hit an obstruction, or cannot extend past the
other candidate rectangles. -/
def extendRightStep (width : Int) (pathBboxes vertBboxes imgBboxes : List IRect)
    (bboxes : List IRect) (i : Nat) : List IRect :=
  match bboxes.get? i with
  | none => bboxes
  | some bb =>
    if inBbox bb pathBboxes ≠ 0 then bboxes
    else if inBbox bb imgBboxes ≠ 0 then bboxes
    else
      let temp : IRect := { bb with x1 := width }
      if intersectsBboxes temp (pathBboxes ++ vertBboxes ++ imgBboxes) then bboxes
      else if canExtend vertBboxes temp bb (bboxes.map some) then bboxes.set i temp
      else bboxes

/-- Helper `extend_right` of `column_boxes`. -/
def extendRight (width : Int) (pathBboxes vertBboxes imgBboxes : List IRect)
    (bboxes : List IRect) : List IRect :=
  (List.range bboxes.length).foldl
    (extendRightStep width pathBboxes vertBboxes imgBboxes) bboxes

/-- One step of the duplicate-removal loop of `clean_nblocks`
(`for i in range(blen - 1, -1, -1)`): compare `nblocks[i]` with
`nblocks[i - 1]` (Python's `-1` indexing the last element when `i = 0`)
and delete index `i` on equality. -/
def dedupStep (l : List IRect) (i : Nat) : List IRect :=
  match l.get? i with
  | none => l
  | some bb1 =>
    let bb0 := if i = 0 then l.getLastD EMPTY_IRECT else l.getD (i - 1) EMPTY_IRECT
    if bb0 = bb1 then l.eraseIdx i else l

/-- The duplicate-removal loop of `clean_nblocks`, counting `i` down
from the initial length minus one to zero. -/
def dedupGo (l : List IRect) : Nat → List IRect
  | 0 => dedupStep l 0
  | i + 1 => dedupGo (dedupStep l (i + 1)) i

/-- Sort relation for the in-band re-sorting of `clean_nblocks`
(`sorted(..., key=lambda b: b.x0)`). -/
def leftLe (a b : IRect) : Prop := a.x0 ≤ b.x0

instance : DecidableRel leftLe := fun a b => Int.decLe a.x0 b.x0

/-- Python slice assignment `l[i0 : i1 + 1] = sorted(l[i0 : i1 + 1],
key=lambda b: b.x0)`. -/
def sortSlice (l : List IRect) (i0 i1 : Nat) : List IRect :=
  l.take i0 ++ List.insertionSort leftLe ((l.drop i0).take (i1 + 1 - i0)) ++ l.drop (i1 + 1)

/-- The horizontal-band re-sorting loop of `clean_nblocks`: group
consecutive rectangles whose bottom edges stay within 10 units of the
band anchor and re-sort each band left-to-right.  The fuel counts the
remaining iterations (`len(nblocks) - i`); the list length never
changes. -/
def bandGo (l : List IRect) (y1 : Int) (i0 : Nat) (i1 : Int) (i : Nat) :
    Nat → List IRect
  | 0 => if (i0 : Int) < i1 then sortSlice l i0 i1.toNat else l
  | fuel + 1 =>
    let b1 := l.getD i EMPTY_IRECT
    if 10 < |b1.y1 - y1| then
      let l2 := if (i0 : Int) < i1 then sortSlice l i0 i1.toNat else l
      bandGo l2 b1.y1 i i (i + 1) fuel
    else
      bandGo l y1 i0 i (i + 1) fuel

/-- Model of `clean_nblocks`: drop duplicate rectangles, then re-sort horizontal
bands.  Returns `none` when the duplicate-removal loop empties the list
(Python would then raise an `IndexError` on `nblocks[0]`, caught by the
caller's blanket handler). -/
def cleanNblocks (nblocks : List IRect) : Option (List IRect) :=
  if nblocks.length < 2 then some nblocks
  else
    match dedupGo nblocks (nblocks.length - 1) with
    | [] => none
    | b0 :: rest => some (bandGo (b0 :: rest) b0.y1 0 (-1) 1 (rest.length))

/-- Per-block classification loop of `column_boxes`: skip image-overlaid
blocks (when `no_image_text` is set) and blocks without lines, set
non-horizontal blocks aside as vertical rectangles, and otherwise keep
the union of the line boxes whose joined stripped span text is longer
than one character (when that union is non-empty). -/
def blockRects (noImageText : Bool) (imgBboxes : List IRect)
    (blocks : List Block) : List IRect × List IRect :=
  blocks.foldl
    (fun acc b =>
      let bbox := b.bbox
      if noImageText && inBbox bbox imgBboxes ≠ 0 then acc
      else
        match b.lines with
        | [] => acc
        | line0 :: _ =>
          if line0.dir ≠ (1, 0) then (acc.1, acc.2 ++ [bbox])
          else
            let srect := b.lines.foldl
              (fun s ln => if 1 < (lineText ln).length then s.union ln.bbox else s)
              EMPTY_IRECT
            if !srect.isEmpty then (acc.1 ++ [srect], acc.2) else acc)
    ([], [])

/-- Sort relation on path rectangles
(`path_bboxes.sort(key=lambda b: (b.y0, b.x0))`). -/
def pathKeyLe (a b : IRect) : Prop :=
  a.y0 < b.y0 ∨ (a.y0 = b.y0 ∧ a.x0 ≤ b.x0)

instance : DecidableRel pathKeyLe := fun _ _ => by
  unfold pathKeyLe; infer_instance

/-- Sort relation on candidate rectangles
(`bboxes.sort(key=lambda k: (in_bbox(k, path_bboxes), k.y0, k.x0))`). -/
def colKeyLe (pathBboxes : List IRect) (a b : IRect) : Prop :=
  inBbox a pathBboxes < inBbox b pathBboxes ∨
    (inBbox a pathBboxes = inBbox b pathBboxes ∧
      (a.y0 < b.y0 ∨ (a.y0 = b.y0 ∧ a.x0 ≤ b.x0)))

instance (pathBboxes : List IRect) : DecidableRel (colKeyLe pathBboxes) :=
  fun _ _ => by unfold colKeyLe; infer_instance

/-- State of the greedy merge loop of `column_boxes`: the `nblocks`
list built so far and the remaining candidate list (entries set to
`None` once consumed). -/
structure MergeState where
  nblocks : List IRect
  bboxes : List (Option IRect)
deriving Repr

/-- Inner scan of the greedy merge loop: find the first `nblocks` entry
that horizontally overlaps the candidate, shares path membership, and
whose union with the candidate passes `can_extend`; return its index
and the union. -/
def findMergeJ (pathBboxes vertBboxes nblocks : List IRect) (bb : IRect) :
    Option (Nat × IRect) :=
  let rec go (j : Nat) : List IRect → Option (Nat × IRect)
    | [] => none
    | nbb :: rest =>
      if nbb.x1 < bb.x0 || bb.x1 < nbb.x0 then go (j + 1) rest
      else if inBbox nbb pathBboxes ≠ inBbox bb pathBboxes then go (j + 1) rest
      else
        let temp := bb.union nbb
        if canExtend vertBboxes temp nbb (nblocks.map some) then some (j, temp)
        else go (j + 1) rest
  go 0 nblocks

/-- One iteration of the greedy merge loop of `column_boxes` for the
candidate at index `i`, including the second `can_extend` check against
the remaining candidate list that the original code performs. -/
def mergeStep (pathBboxes vertBboxes : List IRect) (st : MergeState) (i : Nat) :
    MergeState :=
  match st.bboxes.getD i none with
  | none => st
  | some bb =>
    let nblocks2 :=
      match findMergeJ pathBboxes vertBboxes st.nblocks bb with
      | some ⟨j, temp⟩ =>
        if canExtend vertBboxes temp bb st.bboxes then st.nblocks.set j temp
        else st.nblocks ++ [bb]
      | none =>
        let nb := st.nblocks ++ [bb]
        if canExtend vertBboxes bb bb st.bboxes then nb.set (nb.length - 1) bb
        else nb ++ [bb]
    { nblocks := nblocks2, bboxes := st.bboxes.set i none }

/-- Model of `PymupdfParser.column_boxes`, parameterised by the page rectangle,
the margins, the `no_image_text` flag, the drawing-path rectangles, the
image rectangles and the raw text blocks.  `clip` is the usable-area
rectangle; every degenerate or failing case returns `[clip]`. -/
def columnBoxes (pageRect : IRect) (headerMargin footerMargin : Int)
    (noImageText : Bool) (pathRects imgBboxes : List IRect)
    (blocks : List Block) : List IRect :=
  let clip : IRect :=
    ⟨pageRect.x0, pageRect.y0 + headerMargin, pageRect.x1, pageRect.y1 - footerMargin⟩
  let pathBboxes := List.insertionSort pathKeyLe pathRects
  if blocks.isEmpty then [clip]
  else if blocks.any (fun b =>
      b.bbox.x0 > 2147483000 || b.bbox.y0 > 2147483000 ||
      b.bbox.x1 > 2147483000 || b.bbox.y1 > 2147483000 ||
      b.bbox.x0 < -2147483000 || b.bbox.y0 < -2147483000 ||
      b.bbox.x1 < -2147483000 || b.bbox.y1 < -2147483000) then [clip]
  else
    let br := blockRects noImageText imgBboxes blocks
    let vertBboxes := br.2
    match List.insertionSort (colKeyLe pathBboxes) br.1 with
    | [] => [clip]
    | sorted0 :: sortedRest =>
      match extendRight (pageRect.x1 - pageRect.x0) pathBboxes vertBboxes imgBboxes
          (sorted0 :: sortedRest) with
      | [] => [clip]
      | b0 :: rest =>
        let st := (List.range rest.length).foldl
          (mergeStep pathBboxes vertBboxes) ⟨[b0], rest.map some⟩
        match cleanNblocks st.nblocks with
        | none => [clip]
        | some r => r

/-- Lemma: `should_merge_tables` with tolerance `0` rejects every pair: both
alignment tests require an absolute difference strictly below the
tolerance, and absolute values are never negative. -/
theorem shouldMergeTables_zero (b1 b2 : IRect) :
    shouldMergeTables 0 b1 b2 = false := by
  unfold shouldMergeTables
  have h1 : decide (|b1.y0 - b2.y0| < (0 : Int)) = false :=
    decide_eq_false (not_lt.mpr (abs_nonneg _))
  have h2 : decide (|b1.x0 - b2.x0| < (0 : Int)) = false :=
    decide_eq_false (not_lt.mpr (abs_nonneg _))
  simp [h1, h2]

/-- With tolerance `0` the merge loop copies its input unchanged. -/
theorem mergeTablesLoop_zero (c : IRect) (l : List IRect) :
    mergeTablesLoop 0 c l = c :: l := by
  induction l generalizing c with
  | nil => rfl
  | cons b rest ih => simp [mergeTablesLoop, shouldMergeTables_zero, ih]

/-- Claim C9: with tolerance `0`, `should_merge_tables` is false for
every pair of rectangles, so `merge_tables` returns every input list
unchanged. -/
theorem C9_tolerance_zero :
    (∀ b1 b2 : IRect, shouldMergeTables 0 b1 b2 = false) ∧
    (∀ l : List IRect, mergeTables 0 l = l) := by
  refine ⟨shouldMergeTables_zero, fun l => ?_⟩
  cases l with
  | nil => rfl
  | cons b rest => simpa [mergeTables] using mergeTablesLoop_zero b rest

/-- Claim C10: `split_bbox_by_table` preserves the horizontal extent of
its input.  Any returned above slice keeps the text rectangle's `x0`
and `x1` and spans from the text top to the table top, and is returned
only when the text top is strictly above the table top; symmetrically
for the below slice. -/
theorem C10_split_frame (extract : IRect → String) (textBbox tableBbox : IRect) :
    (∀ a, (splitBboxByTable extract textBbox tableBbox).1 = some a →
      textBbox.y0 < tableBbox.y0 ∧
        a = ⟨textBbox.x0, textBbox.y0, textBbox.x1, tableBbox.y0⟩) ∧
    (∀ b, (splitBboxByTable extract textBbox tableBbox).2 = some b →
      tableBbox.y1 < textBbox.y1 ∧
        b = ⟨textBbox.x0, tableBbox.y1, textBbox.x1, textBbox.y1⟩) := by
  unfold splitBboxByTable
  constructor
  · intro a ha
    by_cases hy : textBbox.y0 < tableBbox.y0
    · simp only [hy, if_true] at ha
      split at ha
      · exact ⟨hy, (Option.some_injective _ ha).symm⟩
      · exact absurd ha (by simp)
    · simp [hy] at ha
  · intro b hb
    by_cases hy : textBbox.y1 > tableBbox.y1
    · simp only [hy, if_true] at hb
      split at hb
      · exact ⟨hy, (Option.some_injective _ hb).symm⟩
      · exact absurd hb (by simp)
    · simp [hy] at hb

/-- Witness for C10 at a concrete split: text rectangle `(0,0)-(10,10)`
split by table `(2,5)-(12,20)` yields the above slice `(0,0)-(10,5)`. -/
theorem C10_split_frame_witness :
    (0 : Int) < 5 ∧
      (⟨0, 0, 10, 5⟩ : IRect) = ⟨(⟨0, 0, 10, 10⟩ : IRect).x0, 0, 10, 5⟩ :=
  (C10_split_frame (fun _ => "x") ⟨0, 0, 10, 10⟩ ⟨2, 5, 12, 20⟩).1
    ⟨0, 0, 10, 5⟩ (by decide)

/-- Counterexample for C3: with tolerance `20` the rectangles
`(0,0)-(10,10)` and `(20,20)-(30,30)` do NOT merge — all four edge
differences equal `20` and alignment requires a difference strictly
below the tolerance — so `merge_tables` leaves both rectangles
separate. -/
theorem C3_counterexample :
    mergeTables 20 [⟨0, 0, 10, 10⟩, ⟨20, 20, 30, 30⟩] =
      [⟨0, 0, 10, 10⟩, ⟨20, 20, 30, 30⟩] := by decide

/-- Claim C3 (amended): with tolerance `20` the rectangles
`(0,0)-(10,10)` and `(9,9)-(20,20)` merge into `(0,0)-(20,20)`; the
rectangles `(0,0)-(10,10)` and `(20,20)-(30,30)` stay separate with
tolerance `20` just as with tolerance `5`, and merge only once the
tolerance exceeds `20` (e.g. `21`). -/
theorem C3_merge_examples :
    mergeTables 20 [⟨0, 0, 10, 10⟩, ⟨9, 9, 20, 20⟩] = [⟨0, 0, 20, 20⟩] ∧
    mergeTables 20 [⟨0, 0, 10, 10⟩, ⟨20, 20, 30, 30⟩] =
      [⟨0, 0, 10, 10⟩, ⟨20, 20, 30, 30⟩] ∧
    mergeTables 5 [⟨0, 0, 10, 10⟩, ⟨20, 20, 30, 30⟩] =
      [⟨0, 0, 10, 10⟩, ⟨20, 20, 30, 30⟩] ∧
    mergeTables 21 [⟨0, 0, 10, 10⟩, ⟨20, 20, 30, 30⟩] = [⟨0, 0, 30, 30⟩] := by
  refine ⟨by decide, by decide, by decide, by decide⟩

/-- Counterexample for C4: `merge_tables` is not idempotent.  With
tolerance `10`, the input `[(0,0)-(50,10), (0,100)-(50,110),
(0,15)-(50,105)]` merges to `[(0,0)-(50,10), (0,15)-(50,110)]`, whose
two rectangles are vertically aligned and within tolerance of each
other, so a second application merges them further. -/
theorem C4_counterexample :
    mergeTables 10 (mergeTables 10
        [⟨0, 0, 50, 10⟩, ⟨0, 100, 50, 110⟩, ⟨0, 15, 50, 105⟩]) ≠
      mergeTables 10 [⟨0, 0, 50, 10⟩, ⟨0, 100, 50, 110⟩, ⟨0, 15, 50, 105⟩] := by
  decide

/-- Claim C4 (amended): `merge_tables` maps the empty input to the empty
output and returns a single-element input unchanged, and it is
idempotent on inputs of at most two rectangles; idempotence fails in
general (three rectangles can merge further on a second pass). -/
theorem C4_short_input_idempotent :
    (∀ tolerance : Int, mergeTables tolerance [] = []) ∧
    (∀ (tolerance : Int) (a : IRect), mergeTables tolerance [a] = [a]) ∧
    (∀ (tolerance : Int) (l : List IRect), l.length ≤ 2 →
      mergeTables tolerance (mergeTables tolerance l) = mergeTables tolerance l) := by
  refine ⟨fun _ => rfl, fun _ _ => rfl, fun tolerance l hl => ?_⟩
  match l with
  | [] => rfl
  | [a] => rfl
  | [a, b] =>
    by_cases h : shouldMergeTables tolerance a b = true
    · simp [mergeTables, mergeTablesLoop, h]
    · simp only [Bool.not_eq_true] at h
      simp [mergeTables, mergeTablesLoop, h]
  | a :: b :: c :: rest => simp at hl

/-- Witness for C4 at a concrete short input: two distant rectangles
with tolerance `10` are already a fixed point of `merge_tables`. -/
theorem C4_short_input_idempotent_witness :
    mergeTables 10 (mergeTables 10 [⟨0, 0, 10, 10⟩, ⟨100, 100, 110, 110⟩]) =
      mergeTables 10 [⟨0, 0, 10, 10⟩, ⟨100, 100, 110, 110⟩] :=
  C4_short_input_idempotent.2.2 10 [⟨0, 0, 10, 10⟩, ⟨100, 100, 110, 110⟩]
    (by decide)

/-- Start page of segment `i` in `get_page_segments`: `i` full chunks
plus one extra page for each earlier segment that received one. -/
def segStart (chunkSize remainder i : Nat) : Nat :=
  i * chunkSize + min i remainder

/-- Number of segments `get_page_segments` produces for `numPages`
pages and `m > 0` processors. -/
def segCount (m numPages : Nat) : Nat :=
  if numPages = 0 then 1 else min m numPages

/-- The list `[s, s + 1, ..., s + n - 1]`. -/
def idxList (s : Nat) : Nat → List Nat
  | 0 => []
  | n + 1 => s :: idxList (s + 1) n

theorem segStart_zero (c r : Nat) : segStart c r 0 = 0 := by
  simp [segStart]

theorem segStart_succ (c r i : Nat) :
    segStart c r (i + 1) = segStart c r i + c + (if i < r then 1 else 0) := by
  unfold segStart
  rw [Nat.succ_mul]
  by_cases h : i < r
  · rw [if_pos h]; omega
  · rw [if_neg h]; omega

theorem segStart_le_np (m np j : Nat) (hm : 0 < m) (hj : j ≤ m) :
    segStart (np / m) (np % m) j ≤ np := by
  have h1 : j * (np / m) ≤ m * (np / m) := Nat.mul_le_mul_right _ hj
  have h2 := Nat.div_add_mod np m
  have h3 : min j (np % m) ≤ np % m := Nat.min_le_right _ _
  unfold segStart; omega

theorem segStart_lt_np (m np j : Nat) (hm : 0 < m) (hnp : 0 < np)
    (hj : j < segCount m np) : segStart (np / m) (np % m) j < np := by
  rcases Nat.lt_or_ge np m with hcase | hcase
  · have hc : np / m = 0 := Nat.div_eq_of_lt hcase
    have hr : np % m = np := Nat.mod_eq_of_lt hcase
    have hL : segCount m np = np := by
      unfold segCount
      rw [if_neg (by omega), Nat.min_eq_right (by omega)]
    unfold segStart
    rw [hc, hr] at *
    have : min j np = j := Nat.min_eq_left (by omega)
    omega
  · have hc : 1 ≤ np / m := (Nat.one_le_div_iff hm).mpr hcase
    have hL : segCount m np = m := by
      unfold segCount
      rw [if_neg (by omega), Nat.min_eq_left (by omega)]
    have hjm : j ≤ m - 1 := by omega
    have h1 : j * (np / m) ≤ (m - 1) * (np / m) := Nat.mul_le_mul_right _ hjm
    have h2 := Nat.div_add_mod np m
    have h3 : (m - 1) * (np / m) + np / m = m * (np / m) := by
      rw [← Nat.succ_mul]; congr 1; omega
    have h4 : min j (np % m) ≤ np % m := Nat.min_le_right _ _
    unfold segStart; omega

theorem np_le_segStart (m np j : Nat) (hm : 0 < m)
    (hj1 : segCount m np ≤ j) (hj2 : j ≤ m) :
    np ≤ segStart (np / m) (np % m) j := by
  rcases Nat.eq_zero_or_pos np with hnp | hnp
  · omega
  rcases Nat.lt_or_ge np m with hcase | hcase
  · have hc : np / m = 0 := Nat.div_eq_of_lt hcase
    have hr : np % m = np := Nat.mod_eq_of_lt hcase
    have hL : segCount m np = np := by
      unfold segCount
      rw [if_neg (by omega), Nat.min_eq_right (by omega)]
    unfold segStart
    rw [hc, hr]
    have : min j np = np := Nat.min_eq_right (by omega)
    omega
  · have hL : segCount m np = m := by
      unfold segCount
      rw [if_neg (by omega), Nat.min_eq_left (by omega)]
    have hj : j = m := by omega
    have h2 := Nat.div_add_mod np m
    have h3 : min j (np % m) = np % m :=
      Nat.min_eq_right (by have := Nat.mod_lt np hm; omega)
    have h4 : j * (np / m) = m * (np / m) := by rw [hj]
    unfold segStart; omega

theorem segStart_segCount (m np : Nat) (hm : 0 < m) :
    segStart (np / m) (np % m) (segCount m np) = np := by
  rcases Nat.eq_zero_or_pos np with hnp | hnp
  · subst hnp
    simp [segCount, segStart, Nat.zero_div]
  have h1 := segStart_le_np m np (segCount m np) hm (by
    unfold segCount
    rw [if_neg (by omega)]
    exact Nat.min_le_left _ _)
  have h2 := np_le_segStart m np (segCount m np) hm (le_refl _) (by
    unfold segCount
    rw [if_neg (by omega)]
    exact Nat.min_le_left _ _)
  omega

theorem segmentsGo_closed (m np : Nat) (hm : 0 < m) :
    ∀ k i, i + k = m → i < segCount m np →
      segmentsGo (np / m) (np % m) np k i (segStart (np / m) (np % m) i) =
        (idxList i (segCount m np - i)).map
          (fun j => (segStart (np / m) (np % m) j, segStart (np / m) (np % m) (j + 1))) := by
  have hLm : segCount m np ≤ m := by
    unfold segCount
    split
    · omega
    · exact Nat.min_le_left _ _
  intro k
  induction k with
  | zero => intro i hik hiL; omega
  | succ k ih =>
    intro i hik hiL
    rw [segmentsGo]
    have hstep : segStart (np / m) (np % m) i + np / m +
        (if i < np % m then 1 else 0) = segStart (np / m) (np % m) (i + 1) :=
      (segStart_succ _ _ _).symm
    have hle : segStart (np / m) (np % m) (i + 1) ≤ np :=
      segStart_le_np m np (i + 1) hm (by omega)
    have hmin : min (segStart (np / m) (np % m) i + np / m +
        (if i < np % m then 1 else 0)) np = segStart (np / m) (np % m) (i + 1) := by
      rw [hstep]; exact Nat.min_eq_left hle
    rw [hmin]
    by_cases hbreak : np ≤ segStart (np / m) (np % m) (i + 1)
    · rw [if_pos hbreak]
      have hL : segCount m np = i + 1 := by
        by_contra hne
        have hlt : i + 1 < segCount m np := by omega
        have hnp : 0 < np := by
          rcases Nat.eq_zero_or_pos np with h0 | h0
          · subst h0; simp [segCount] at hlt
          · exact h0
        have := segStart_lt_np m np (i + 1) hm hnp hlt
        omega
      rw [hL]
      have : i + 1 - i = 1 := by omega
      rw [this]
      rfl
    · rw [if_neg hbreak]
      have hnp : 0 < np := by
        rcases Nat.eq_zero_or_pos np with h0 | h0
        · subst h0; omega
        · exact h0
      have hlt : i + 1 < segCount m np := by
        by_contra hge
        have := np_le_segStart m np (i + 1) hm (by omega) (by omega)
        omega
      rw [ih (i + 1) (by omega) hlt]
      have hsplit : segCount m np - i = (segCount m np - (i + 1)) + 1 := by omega
      rw [hsplit]
      rfl

theorem getPageSegments_closed (maxProcessors : Int) (numPages : Nat)
    (hmp : 0 < maxProcessors) :
    getPageSegments maxProcessors numPages =
      Except.ok ((idxList 0 (segCount maxProcessors.toNat numPages)).map
        (fun j => (segStart (numPages / maxProcessors.toNat)
            (numPages % maxProcessors.toNat) j,
          segStart (numPages / maxProcessors.toNat)
            (numPages % maxProcessors.toNat) (j + 1)))) := by
  have hm : 0 < maxProcessors.toNat := by omega
  unfold getPageSegments
  rw [if_neg (by omega)]
  have h0 : (0 : Nat) = segStart (numPages / maxProcessors.toNat)
      (numPages % maxProcessors.toNat) 0 := (segStart_zero _ _).symm
  have hL0 : 0 < segCount maxProcessors.toNat numPages := by
    unfold segCount
    split
    · omega
    · rcases Nat.eq_zero_or_pos numPages with h | h
      · omega
      · exact lt_min hm h
  have := segmentsGo_closed maxProcessors.toNat numPages hm
    maxProcessors.toNat 0 (by omega) hL0
  rw [segStart_zero] at this
  simp only [Nat.sub_zero] at this
  show Except.ok (segmentsGo (numPages / maxProcessors.toNat)
    (numPages % maxProcessors.toNat) numPages maxProcessors.toNat 0 0) = _
  rw [this]

theorem idxList_length (s n : Nat) : (idxList s n).length = n := by
  induction n generalizing s with
  | zero => rfl
  | succ n ih => simp [idxList, ih]

theorem mem_idxList (x : Nat) : ∀ n s, x ∈ idxList s n ↔ s ≤ x ∧ x < s + n := by
  intro n
  induction n with
  | zero =>
    intro s
    simp only [idxList, List.not_mem_nil, false_iff, not_and, not_lt]
    omega
  | succ n ih =>
    intro s
    simp only [idxList, List.mem_cons, ih]
    omega

theorem idxList_map_getElem (g : Nat → Nat × Nat) :
    ∀ n s i, i < n → ((idxList s n).map g)[i]? = some (g (s + i)) := by
  intro n
  induction n with
  | zero => intro s i h; omega
  | succ n ih =>
    intro s i h
    match i with
    | 0 => simp [idxList]
    | i + 1 =>
      have := ih (s + 1) i (by omega)
      simp only [idxList, List.map_cons, List.getElem?_cons_succ]
      rw [this]
      congr 2
      omega

theorem idxList_map_chain (F : Nat → Nat) :
    ∀ n s, List.Chain' (fun a b => a.2 = b.1)
      ((idxList s n).map fun j => (F j, F (j + 1))) := by
  intro n
  induction n with
  | zero => intro s; simp [idxList]
  | succ n ih =>
    intro s
    match n with
    | 0 => simp [idxList]
    | n + 1 =>
      have := ih (s + 1)
      simp only [idxList, List.map_cons] at this ⊢
      exact List.Chain'.cons rfl this

theorem idxList_map_head (g : Nat → Nat × Nat) (n s : Nat) (h : 0 < n) :
    ((idxList s n).map g).head? = some (g s) := by
  match n with
  | n + 1 => simp [idxList]

theorem idxList_map_getLast (g : Nat → Nat × Nat) :
    ∀ n s, 0 < n → ((idxList s n).map g).getLast? = some (g (s + n - 1)) := by
  intro n
  induction n with
  | zero => intro s h; omega
  | succ n ih =>
    intro s _
    cases n with
    | zero => simp [idxList]
    | succ n =>
      have h := ih (s + 1) (by omega)
      simp only [idxList, List.map_cons] at h ⊢
      rw [List.getLast?_cons_cons]
      have harg : s + 1 + (n + 1) - 1 = s + (n + 1 + 1) - 1 := by omega
      rw [harg] at h
      exact h

theorem idxList_map_sum (F : Nat → Nat) (hmono : ∀ j, F j ≤ F (j + 1)) :
    ∀ n s, (((idxList s n).map fun j => F (j + 1) - F j).sum) + F s = F (s + n) := by
  intro n
  induction n with
  | zero => intro s; simp [idxList]
  | succ n ih =>
    intro s
    have h1 := ih (s + 1)
    have h2 := hmono s
    have h3 : s + 1 + n = s + (n + 1) := by omega
    rw [h3] at h1
    simp only [idxList, List.map_cons, List.sum_cons]
    omega

theorem segStart_le_succ (c r j : Nat) : segStart c r j ≤ segStart c r (j + 1) := by
  rw [segStart_succ]; omega

theorem segStart_strict_of_pos (c r j : Nat)
    (h : 1 ≤ c + (if j < r then 1 else 0)) :
    segStart c r j < segStart c r (j + 1) := by
  rw [segStart_succ]
  omega

theorem segStart_strict (m np j : Nat) (hm : 0 < m) (hnp : 0 < np)
    (hj : j < segCount m np) :
    segStart (np / m) (np % m) j < segStart (np / m) (np % m) (j + 1) := by
  apply segStart_strict_of_pos
  rcases Nat.lt_or_ge np m with hcase | hcase
  · have hr : np % m = np := Nat.mod_eq_of_lt hcase
    have hL : segCount m np = np := by
      unfold segCount; rw [if_neg (by omega), Nat.min_eq_right (by omega)]
    rw [hr, if_pos (by omega)]
    exact Nat.succ_le_succ (Nat.zero_le _)
  · have hc : 1 ≤ np / m := (Nat.one_le_div_iff hm).mpr hcase
    exact le_trans hc (Nat.le_add_right _ _)

/-- Claim C2: for `max_processors > 0`, `get_page_segments` returns
contiguous segments that start at page `0`, end at `num_pages`, have
sizes summing to `num_pages`, where segment `i` has size
`num_pages div max_processors` plus one extra page exactly when
`i < num_pages mod max_processors`; all segments are non-empty when
`num_pages > 0`, `num_pages = 0` yields the single segment `(0,0)`, and
the three concrete examples of the specification hold. -/
theorem C2_get_page_segments (maxProcessors : Int) (numPages : Nat)
    (hmp : 0 < maxProcessors) :
    ∃ segs,
      getPageSegments maxProcessors numPages = Except.ok segs ∧
      List.Chain' (fun a b => a.2 = b.1) segs ∧
      segs.head?.map Prod.fst = some 0 ∧
      segs.getLast?.map Prod.snd = some numPages ∧
      (segs.map fun p => p.2 - p.1).sum = numPages ∧
      (∀ i s e, segs[i]? = some (s, e) →
        e = s + numPages / maxProcessors.toNat +
          (if i < numPages % maxProcessors.toNat then 1 else 0)) ∧
      (0 < numPages → ∀ p ∈ segs, p.1 < p.2) ∧
      (numPages = 0 → segs = [(0, 0)]) ∧
      getPageSegments 4 10 = Except.ok [(0, 3), (3, 6), (6, 8), (8, 10)] ∧
      getPageSegments 3 5 = Except.ok [(0, 2), (2, 4), (4, 5)] ∧
      getPageSegments 10 5 =
        Except.ok [(0, 1), (1, 2), (2, 3), (3, 4), (4, 5)] := by
  have hm : 0 < maxProcessors.toNat := by omega
  have hL0 : 0 < segCount maxProcessors.toNat numPages := by
    unfold segCount
    split
    · omega
    · rcases Nat.eq_zero_or_pos numPages with h | h
      · omega
      · exact lt_min hm h
  have hLlen : ((idxList 0 (segCount maxProcessors.toNat numPages)).map
      (fun j => (segStart (numPages / maxProcessors.toNat)
          (numPages % maxProcessors.toNat) j,
        segStart (numPages / maxProcessors.toNat)
          (numPages % maxProcessors.toNat) (j + 1)))).length =
      segCount maxProcessors.toNat numPages := by
    rw [List.length_map, idxList_length]
  refine ⟨_, getPageSegments_closed maxProcessors numPages hmp,
    idxList_map_chain _ _ _, ?_, ?_, ?_, ?_, ?_, ?_, by rfl, by rfl, by rfl⟩
  · rw [idxList_map_head _ _ _ hL0]
    simp [segStart_zero]
  · rw [idxList_map_getLast _ _ _ hL0]
    simp only [Option.map_some']
    have h1 : 0 + segCount maxProcessors.toNat numPages - 1 + 1 =
        segCount maxProcessors.toNat numPages := by omega
    show some (segStart (numPages / maxProcessors.toNat)
      (numPages % maxProcessors.toNat)
      (0 + segCount maxProcessors.toNat numPages - 1 + 1)) = some numPages
    rw [h1, segStart_segCount _ _ hm]
  · rw [List.map_map]
    have hmono : ∀ j, segStart (numPages / maxProcessors.toNat)
        (numPages % maxProcessors.toNat) j ≤
        segStart (numPages / maxProcessors.toNat)
          (numPages % maxProcessors.toNat) (j + 1) := fun j =>
      segStart_le_succ _ _ j
    have hsum := idxList_map_sum
      (segStart (numPages / maxProcessors.toNat) (numPages % maxProcessors.toNat))
      hmono (segCount maxProcessors.toNat numPages) 0
    rw [segStart_zero, Nat.zero_add] at hsum
    rw [segStart_segCount _ _ hm] at hsum
    show ((idxList 0 (segCount maxProcessors.toNat numPages)).map
      (fun j => segStart (numPages / maxProcessors.toNat)
          (numPages % maxProcessors.toNat) (j + 1) -
        segStart (numPages / maxProcessors.toNat)
          (numPages % maxProcessors.toNat) j)).sum = numPages
    omega
  · intro i s e h
    have hiL : i < segCount maxProcessors.toNat numPages := by
      by_contra hge
      rw [List.getElem?_eq_none (by omega)] at h
      exact Option.noConfusion h
    rw [idxList_map_getElem _ _ _ _ hiL] at h
    have h2 : (segStart (numPages / maxProcessors.toNat)
        (numPages % maxProcessors.toNat) (0 + i),
      segStart (numPages / maxProcessors.toNat)
        (numPages % maxProcessors.toNat) (0 + i + 1)) = (s, e) :=
      Option.some_injective _ h
    have hs : segStart (numPages / maxProcessors.toNat)
        (numPages % maxProcessors.toNat) i = s := by
      have := congrArg Prod.fst h2
      simpa using this
    have he : segStart (numPages / maxProcessors.toNat)
        (numPages % maxProcessors.toNat) (i + 1) = e := by
      have := congrArg Prod.snd h2
      simpa using this
    rw [← hs, ← he, segStart_succ]
  · intro hnp p hp
    rw [List.mem_map] at hp
    obtain ⟨j, hj, hgj⟩ := hp
    rw [mem_idxList] at hj
    have hjL : j < segCount maxProcessors.toNat numPages := by omega
    have := segStart_strict maxProcessors.toNat numPages j hm hnp hjL
    rw [← hgj]
    simpa using this
  · intro hnp
    subst hnp
    have hL1 : segCount maxProcessors.toNat 0 = 1 := by simp [segCount]
    rw [hL1]
    simp [idxList, segStart, Nat.zero_div, Nat.zero_mod]

/-- Witness for C2 at `max_processors = 4`, `num_pages = 10`. -/
theorem C2_get_page_segments_witness :
    ∃ segs,
      getPageSegments 4 10 = Except.ok segs ∧
      List.Chain' (fun a b => a.2 = b.1) segs ∧
      segs.head?.map Prod.fst = some 0 ∧
      segs.getLast?.map Prod.snd = some 10 ∧
      (segs.map fun p => p.2 - p.1).sum = 10 ∧
      (∀ i s e, segs[i]? = some (s, e) →
        e = s + 10 / (4 : Int).toNat +
          (if i < 10 % (4 : Int).toNat then 1 else 0)) ∧
      (0 < 10 → ∀ p ∈ segs, p.1 < p.2) ∧
      (10 = 0 → segs = [(0, 0)]) ∧
      getPageSegments 4 10 = Except.ok [(0, 3), (3, 6), (6, 8), (8, 10)] ∧
      getPageSegments 3 5 = Except.ok [(0, 2), (2, 4), (4, 5)] ∧
      getPageSegments 10 5 =
        Except.ok [(0, 1), (1, 2), (2, 3), (3, 4), (4, 5)] :=
  C2_get_page_segments 4 10 (by decide)

/-- Claim C1: a single column rectangle spanning `y = [0, 100]`
intersected by the single merged table at `y = [40, 60]` yields the
above text slice, the table, and the below text slice in that order,
each text slice present exactly when its extracted trimmed text is
non-empty. -/
theorem C1_reading_order (extract : IRect → String) (c t : IRect)
    (hcy0 : c.y0 = 0) (hcy1 : c.y1 = 100) (hty0 : t.y0 = 40) (hty1 : t.y1 = 60)
    (hint : (c.inter t).isEmpty = false) :
    getOrderedContent extract [c] [t] =
      (if pyStrip (extract ⟨c.x0, 0, c.x1, 40⟩) ≠ "" then
        [((⟨c.x0, 0, c.x1, 40⟩ : IRect), Kind.text)] else []) ++
      [(t, Kind.table)] ++
      (if pyStrip (extract ⟨c.x0, 60, c.x1, 100⟩) ≠ "" then
        [((⟨c.x0, 60, c.x1, 100⟩ : IRect), Kind.text)] else []) := by
  by_cases habove : pyStrip (extract ⟨c.x0, 0, c.x1, 40⟩) = "" <;>
  by_cases hbelow : pyStrip (extract ⟨c.x0, 60, c.x1, 100⟩) = "" <;>
    norm_num [getOrderedContent, processColumn, hint, splitBboxByTable,
      hcy0, hcy1, hty0, hty1, List.insertionSort, List.orderedInsert,
      tablesLoop, emitTable, emitAbove, emitText, habove, hbelow]

/-- Witness for C1 with a constant non-empty oracle: both slices are
kept. -/
theorem C1_reading_order_witness :
    getOrderedContent (fun _ => "x") [⟨0, 0, 100, 100⟩] [⟨10, 40, 90, 60⟩] =
      (if pyStrip ((fun (_ : IRect) => "x") (⟨0, 0, 100, 40⟩ : IRect)) ≠ "" then
        [((⟨0, 0, 100, 40⟩ : IRect), Kind.text)] else []) ++
      [((⟨10, 40, 90, 60⟩ : IRect), Kind.table)] ++
      (if pyStrip ((fun (_ : IRect) => "x") (⟨0, 60, 100, 100⟩ : IRect)) ≠ "" then
        [((⟨0, 60, 100, 100⟩ : IRect), Kind.text)] else []) :=
  C1_reading_order (fun _ => "x") ⟨0, 0, 100, 100⟩ ⟨10, 40, 90, 60⟩ rfl rfl rfl
    rfl (by decide)

/-- The bounding boxes of the Table regions of an ordered-content
list, in emission order. -/
def tablesOf (l : List (IRect × Kind)) : List IRect :=
  l.filterMap fun p =>
    match p.2 with
    | Kind.table => some p.1
    | Kind.text => none

theorem tablesOf_append (l1 l2 : List (IRect × Kind)) :
    tablesOf (l1 ++ l2) = tablesOf l1 ++ tablesOf l2 := by
  simp [tablesOf, List.filterMap_append]

theorem tablesOf_text (l : List (IRect × Kind)) (r : IRect) :
    tablesOf (l ++ [(r, Kind.text)]) = tablesOf l := by
  rw [tablesOf_append]
  simp [tablesOf]

theorem tablesOf_table (l : List (IRect × Kind)) (t : IRect) :
    tablesOf (l ++ [(t, Kind.table)]) = tablesOf l ++ [t] := by
  rw [tablesOf_append]
  simp [tablesOf]

/-- Invariant of the `get_ordered_content` loop: the table rectangles
emitted so far are exactly the `processed_tables` entries, without
duplicates. -/
def OCInv (st : OCState) : Prop :=
  tablesOf st.ordered = st.processed ∧ st.processed.Nodup

theorem emitText_inv (st : OCState) (r : IRect) (h : OCInv st) :
    OCInv (emitText st r) := by
  obtain ⟨h1, h2⟩ := h
  exact ⟨by simp [emitText, tablesOf_text, h1], h2⟩

theorem emitAbove_inv (st : OCState) (o : Option IRect) (h : OCInv st) :
    OCInv (emitAbove st o) := by
  cases o with
  | none => exact h
  | some a => exact emitText_inv st a h

theorem emitTable_inv (st : OCState) (t : IRect) (h : OCInv st) :
    OCInv (emitTable st t) := by
  obtain ⟨h1, h2⟩ := h
  unfold emitTable
  by_cases hmem : t ∈ st.processed
  · rw [if_pos hmem]; exact ⟨h1, h2⟩
  · rw [if_neg hmem]
    refine ⟨by simp [tablesOf_table, h1], ?_⟩
    show (st.processed ++ [t]).Nodup
    rw [← List.concat_eq_append]
    exact h2.concat hmem

theorem tablesLoop_inv (extract : IRect → String) :
    ∀ (tables : List IRect) (st : OCState) (cur : Option IRect), OCInv st →
      OCInv (tablesLoop extract st cur tables).1 := by
  intro tables
  induction tables with
  | nil => intro st cur h; exact h
  | cons t rest ih =>
    intro st cur h
    cases cur with
    | none => exact ih st none h
    | some cb =>
      exact ih _ _ (emitTable_inv _ t (emitAbove_inv _ _ h))

theorem processColumn_inv (extract : IRect → String) (mergedTables : List IRect)
    (st : OCState) (textBbox : IRect) (h : OCInv st) :
    OCInv (processColumn extract mergedTables st textBbox) := by
  simp only [processColumn]
  cases hs : List.insertionSort tableTopLe
      (mergedTables.filter fun t => !(textBbox.inter t).isEmpty) with
  | nil => exact emitText_inv st textBbox h
  | cons t0 rest =>
    have hst1 := emitTable_inv _ t0 (emitAbove_inv st
      (splitBboxByTable extract textBbox t0).1 h)
    have hloop := tablesLoop_inv extract rest _
      (splitBboxByTable extract textBbox t0).2 hst1
    cases hcur : (tablesLoop extract
        (emitTable (emitAbove st (splitBboxByTable extract textBbox t0).1) t0)
        (splitBboxByTable extract textBbox t0).2 rest).2 with
    | none => simpa [hcur] using hloop
    | some cb =>
      simp only [hcur]
      exact emitText_inv _ cb hloop

theorem foldl_processColumn_inv (extract : IRect → String)
    (mergedTables : List IRect) :
    ∀ (l : List IRect) (st : OCState), OCInv st →
      OCInv (l.foldl (processColumn extract mergedTables) st) := by
  intro l
  induction l with
  | nil => intro st h; exact h
  | cons c rest ih =>
    intro st h
    exact ih _ (processColumn_inv extract mergedTables st c h)

/-- Claim C5: the ordered content of a page never contains two Table
regions with an identical bounding box — the emitted table rectangles
are pairwise distinct for every input. -/
theorem C5_no_duplicate_tables (extract : IRect → String)
    (textBboxes mergedTables : List IRect) :
    (tablesOf (getOrderedContent extract textBboxes mergedTables)).Nodup := by
  have h := foldl_processColumn_inv extract mergedTables textBboxes ⟨[], []⟩
    ⟨rfl, List.nodup_nil⟩
  obtain ⟨h1, h2⟩ := h
  unfold getOrderedContent
  rw [h1]
  exact h2

theorem pairwise_ne_of_nodup_map {α β : Type} {f : α → β} :
    ∀ {l : List α}, (l.map f).Nodup → l.Pairwise fun a b => f a ≠ f b := by
  intro l
  induction l with
  | nil => intro _; exact List.Pairwise.nil
  | cons a rest ih =>
    intro h
    rw [List.map_cons, List.nodup_cons] at h
    refine List.Pairwise.cons ?_ (ih h.2)
    intro b hb hfeq
    exact h.1 (hfeq ▸ List.mem_map_of_mem f hb)

theorem sorted_strict_of_nodup (l : List (Nat × List (IRect × Kind)))
    (hs : List.Sorted pageLe l) (hn : (l.map Prod.fst).Nodup) :
    List.Sorted pageLt l := by
  have hne := pairwise_ne_of_nodup_map hn
  have hand := List.Pairwise.and hs hne
  exact hand.imp fun h => lt_of_le_of_ne h.1 h.2

/-- Python's stable sort of the collected results is determined by the
multiset of pairs whenever the page indices are pairwise distinct. -/
theorem sortResults_eq_of_perm (results1 results2 : List (Nat × List (IRect × Kind)))
    (hperm : results1.Perm results2)
    (hnodup : (results1.map Prod.fst).Nodup) :
    sortResults results1 = sortResults results2 := by
  have hp1 : (sortResults results1).Perm results1 :=
    List.perm_insertionSort pageLe results1
  have hp2 : (sortResults results2).Perm results2 :=
    List.perm_insertionSort pageLe results2
  have hp : (sortResults results1).Perm (sortResults results2) :=
    hp1.trans (hperm.trans hp2.symm)
  have hn1 : ((sortResults results1).map Prod.fst).Nodup :=
    ((hp1.map Prod.fst).symm).nodup hnodup
  have hn2 : ((sortResults results2).map Prod.fst).Nodup :=
    ((hp2.map Prod.fst).symm).nodup ((hperm.map Prod.fst).nodup hnodup)
  exact List.eq_of_perm_of_sorted hp
    (sorted_strict_of_nodup _ (List.sorted_insertionSort pageLe results1) hn1)
    (sorted_strict_of_nodup _ (List.sorted_insertionSort pageLe results2) hn2)

theorem pairwise_le_const {γ : Type} (c : Nat) (l : List γ) :
    (l.map fun _ => c).Pairwise (fun a b : Nat => a ≤ b) := by
  induction l with
  | nil => exact List.Pairwise.nil
  | cons x xs ih =>
    rw [List.map_cons]
    refine List.Pairwise.cons ?_ ih
    intro b hb
    rw [List.mem_map] at hb
    obtain ⟨_, _, rfl⟩ := hb
    exact le_refl c

theorem flatMap_startPage_pairwise (extract : Nat → IRect → String) :
    ∀ l : List (Nat × List (IRect × Kind)), l.Pairwise pageLe →
      ((l.flatMap (pageElems extract)).map Element.startPage).Pairwise
        (fun a b : Nat => a ≤ b) := by
  intro l
  induction l with
  | nil => intro _; exact List.Pairwise.nil
  | cons pr rest ih =>
    intro h
    rw [List.pairwise_cons] at h
    rw [List.flatMap_cons, List.map_append, List.pairwise_append]
    refine ⟨?_, ih h.2, ?_⟩
    · have hconst : (pageElems extract pr).map Element.startPage =
          pr.2.map fun _ => pr.1 + 1 := by
        simp [pageElems, List.map_map, Function.comp_def]
      rw [hconst]
      exact pairwise_le_const _ _
    · intro x hx y hy
      have hxval : x = pr.1 + 1 := by
        rw [List.mem_map] at hx
        obtain ⟨e, he, rfl⟩ := hx
        simp only [pageElems, List.mem_map] at he
        obtain ⟨_, _, rfl⟩ := he
        rfl
      have hyval : ∃ qr, qr ∈ rest ∧ y = qr.1 + 1 := by
        rw [List.mem_map] at hy
        obtain ⟨e, he, rfl⟩ := hy
        rw [List.mem_flatMap] at he
        obtain ⟨qr, hqr, heq⟩ := he
        simp only [pageElems, List.mem_map] at heq
        obtain ⟨_, _, rfl⟩ := heq
        exact ⟨qr, hqr, rfl⟩
      obtain ⟨qr, hqr, rfl⟩ := hyval
      have h2 : pr.1 ≤ qr.1 := h.1 qr hqr
      omega

/-- Claim C7: regardless of the order in which worker results are
concatenated, the final Element sequence is the same (its page order is
restored by the sort on page index) and its `start_page` values are
monotonically non-decreasing. -/
theorem C7_global_page_order (extract : Nat → IRect → String)
    (results1 results2 : List (Nat × List (IRect × Kind)))
    (hperm : results1.Perm results2)
    (hnodup : (results1.map Prod.fst).Nodup) :
    elementsOf extract results1 = elementsOf extract results2 ∧
    ((elementsOf extract results1).map Element.startPage).Pairwise
      (fun a b : Nat => a ≤ b) := by
  constructor
  · unfold elementsOf
    rw [sortResults_eq_of_perm results1 results2 hperm hnodup]
  · unfold elementsOf
    exact flatMap_startPage_pairwise extract _
      (List.sorted_insertionSort pageLe results1)

/-- Witness for C7: two single-region pages delivered out of order
produce the same, page-sorted Element sequence. -/
theorem C7_global_page_order_witness :
    elementsOf (fun _ _ => "t")
        [(1, [(⟨0, 0, 5, 5⟩, Kind.text)]), (0, [(⟨0, 0, 9, 9⟩, Kind.text)])] =
      elementsOf (fun _ _ => "t")
        [(0, [(⟨0, 0, 9, 9⟩, Kind.text)]), (1, [(⟨0, 0, 5, 5⟩, Kind.text)])] ∧
    ((elementsOf (fun _ _ => "t")
        [(1, [(⟨0, 0, 5, 5⟩, Kind.text)]),
         (0, [(⟨0, 0, 9, 9⟩, Kind.text)])]).map Element.startPage).Pairwise
      (fun a b : Nat => a ≤ b) :=
  C7_global_page_order (fun _ _ => "t")
    [(1, [(⟨0, 0, 5, 5⟩, Kind.text)]), (0, [(⟨0, 0, 9, 9⟩, Kind.text)])]
    [(0, [(⟨0, 0, 9, 9⟩, Kind.text)]), (1, [(⟨0, 0, 5, 5⟩, Kind.text)])]
    (List.Perm.swap _ _ _) (by decide)

/-- Claim C6 (amended): `column_boxes` returns exactly the single
usable-area rectangle whenever there are no text blocks, or some block
bbox coordinate exceeds `2147483000` or lies below `-2147483000` (the
code's sentinel threshold, not `2^31 - 1000`). -/
theorem C6_degenerate_fallback (pageRect : IRect) (headerMargin footerMargin : Int)
    (noImageText : Bool) (pathRects imgBboxes : List IRect) (blocks : List Block)
    (h : blocks = [] ∨ ∃ b ∈ blocks,
      b.bbox.x0 > 2147483000 ∨ b.bbox.y0 > 2147483000 ∨
      b.bbox.x1 > 2147483000 ∨ b.bbox.y1 > 2147483000 ∨
      b.bbox.x0 < -2147483000 ∨ b.bbox.y0 < -2147483000 ∨
      b.bbox.x1 < -2147483000 ∨ b.bbox.y1 < -2147483000) :
    columnBoxes pageRect headerMargin footerMargin noImageText pathRects
        imgBboxes blocks =
      [⟨pageRect.x0, pageRect.y0 + headerMargin, pageRect.x1,
        pageRect.y1 - footerMargin⟩] := by
  rcases h with h | h
  · subst h
    rfl
  · obtain ⟨b, hb, hcoord⟩ := h
    have hne : blocks.isEmpty = false := by
      cases blocks with
      | nil => exact absurd hb (List.not_mem_nil b)
      | cons _ _ => rfl
    have hP : (b.bbox.x0 > 2147483000 || b.bbox.y0 > 2147483000 ||
        b.bbox.x1 > 2147483000 || b.bbox.y1 > 2147483000 ||
        b.bbox.x0 < -2147483000 || b.bbox.y0 < -2147483000 ||
        b.bbox.x1 < -2147483000 || b.bbox.y1 < -2147483000) = true := by
      rcases hcoord with h | h | h | h | h | h | h | h <;> simp [h]
    have hany : (blocks.any fun b =>
        b.bbox.x0 > 2147483000 || b.bbox.y0 > 2147483000 ||
        b.bbox.x1 > 2147483000 || b.bbox.y1 > 2147483000 ||
        b.bbox.x0 < -2147483000 || b.bbox.y0 < -2147483000 ||
        b.bbox.x1 < -2147483000 || b.bbox.y1 < -2147483000) = true :=
      List.any_eq_true.mpr ⟨b, hb, hP⟩
    simp only [columnBoxes, hne, Bool.false_eq_true, if_false, hany, if_true]

/-- Witness for C6 at a concrete corrupted block. -/
theorem C6_degenerate_fallback_witness :
    columnBoxes ⟨0, 0, 100, 200⟩ 0 0 false [] []
        [⟨⟨0, 0, 2147483647, 10⟩, []⟩] =
      [⟨0, 0 + 0, 100, 200 - 0⟩] :=
  C6_degenerate_fallback ⟨0, 0, 100, 200⟩ 0 0 false [] []
    [⟨⟨0, 0, 2147483647, 10⟩, []⟩] (by decide)

/-- Counterexample for C6: a block coordinate of magnitude exactly
`2^31 - 1000 = 2147482648` does not trigger the fallback — the code's
threshold is the strict comparison against `2147483000` — and column
detection proceeds, returning the block-derived (right-extended)
rectangle instead of the usable-area rectangle. -/
theorem C6_counterexample :
    ((2147482648 : Int) = 2 ^ 31 - 1000) ∧
    columnBoxes ⟨0, 0, 100, 200⟩ 0 0 false [] []
        [⟨⟨0, 0, 2147482648, 10⟩, [⟨(1, 0), ⟨0, 0, 50, 10⟩, ["ab"]⟩]⟩] =
      [⟨0, 0, 100, 10⟩] ∧
    ([(⟨0, 0, 100, 10⟩ : IRect)] : List IRect) ≠
      [⟨0, 0 + 0, 100, 200 - 0⟩] := by
  refine ⟨by norm_num, by decide, by decide⟩

/-- Single-page composition of `parse`: run `column_boxes`, merge the
detected tables, order the page content, and assemble the `Element`
list for the one page (page index `0`). -/
def parseSinglePage (pageRect : IRect) (headerMargin footerMargin : Int)
    (noImageText : Bool) (pathRects imgBboxes : List IRect) (blocks : List Block)
    (rawTables : List IRect) (tolerance : Int) (extract : IRect → String) :
    List Element :=
  elementsOf (fun _ r => extract r)
    [(0, getOrderedContent extract
      (columnBoxes pageRect headerMargin footerMargin noImageText pathRects
        imgBboxes blocks)
      (mergeTables tolerance rawTables))]

theorem blockRects_single (noImageText : Bool) (imgBboxes : List IRect) (b : Block) :
    blockRects noImageText imgBboxes [b] = ([], []) ∨
    (∃ r, blockRects noImageText imgBboxes [b] = ([r], [])) ∨
    (∃ v, blockRects noImageText imgBboxes [b] = ([], [v])) := by
  unfold blockRects
  simp only [List.foldl_cons, List.foldl_nil]
  split
  · left; rfl
  · split
    · left; rfl
    · split
      · right; right; exact ⟨b.bbox, rfl⟩
      · split
        · right; left; exact ⟨_, rfl⟩
        · left; rfl

theorem extendRight_single (width : Int) (paths verts imgs : List IRect)
    (r : IRect) :
    ∃ r', extendRight width paths verts imgs [r] = [r'] := by
  unfold extendRight
  have hlen : ([r] : List IRect).length = 1 := rfl
  have hr1 : List.range 1 = [0] := rfl
  rw [hlen, hr1]
  simp only [List.foldl_cons, List.foldl_nil]
  unfold extendRightStep
  split
  · exact ⟨r, rfl⟩
  · dsimp only
    split_ifs <;> exact ⟨_, rfl⟩

theorem columnBoxes_single_block (pageRect : IRect)
    (headerMargin footerMargin : Int) (noImageText : Bool)
    (pathRects imgBboxes : List IRect) (b : Block) :
    ∃ c, columnBoxes pageRect headerMargin footerMargin noImageText pathRects
      imgBboxes [b] = [c] := by
  simp only [columnBoxes]
  split
  · exact ⟨_, rfl⟩
  · split
    · exact ⟨_, rfl⟩
    · rcases blockRects_single noImageText imgBboxes b with h | ⟨r, h⟩ | ⟨v, h⟩
      · rw [h]
        simp only [List.insertionSort]
        exact ⟨_, rfl⟩
      · rw [h]
        simp only [List.insertionSort, List.orderedInsert]
        obtain ⟨r', hr'⟩ := extendRight_single (pageRect.x1 - pageRect.x0)
          (List.insertionSort pathKeyLe pathRects) ([r], ([] : List IRect)).2
          imgBboxes r
        rw [hr']
        simp only [List.length_nil, List.range_zero, List.foldl_nil]
        exact ⟨r', rfl⟩
      · rw [h]
        simp only [List.insertionSort]
        exact ⟨_, rfl⟩

/-- Claim C8 (amended): parsing a single-page document with one text
block and no detected tables yields exactly one Text element, whose
text is the trimmed oracle extraction over the single column rectangle
produced by column detection — not, in general, over the full usable
rectangle. -/
theorem C8_single_block_roundtrip (pageRect : IRect)
    (headerMargin footerMargin : Int) (noImageText : Bool)
    (pathRects imgBboxes : List IRect) (b : Block) (tolerance : Int)
    (extract : IRect → String) :
    ∃ c, columnBoxes pageRect headerMargin footerMargin noImageText pathRects
        imgBboxes [b] = [c] ∧
      parseSinglePage pageRect headerMargin footerMargin noImageText pathRects
        imgBboxes [b] [] tolerance extract =
        [⟨pyStrip (extract c), Kind.text, 1, 1⟩] := by
  obtain ⟨c, hc⟩ := columnBoxes_single_block pageRect headerMargin footerMargin
    noImageText pathRects imgBboxes b
  refine ⟨c, hc, ?_⟩
  unfold parseSinglePage
  rw [hc]
  rfl

/-- Counterexample for C8: a single-page document with one text block
at `(10,10)-(50,20)` on a `(0,0)-(100,200)` page (no margins, no
tables) produces one Text element whose text is the extraction over the
column rectangle `(10,10)-(100,20)`; with an oracle that answers
`"FULL"` on the usable rectangle and `"PART"` elsewhere, the element
text is `"PART"`, not the trimmed extraction over the usable
rectangle. -/
theorem C8_counterexample :
    parseSinglePage ⟨0, 0, 100, 200⟩ 0 0 false [] []
        [⟨⟨10, 10, 50, 20⟩, [⟨(1, 0), ⟨10, 10, 50, 20⟩, ["ab"]⟩]⟩] [] 20
        (fun r => if r = (⟨0, 0, 100, 200⟩ : IRect) then "FULL" else "PART") =
      [⟨"PART", Kind.text, 1, 1⟩] ∧
    pyStrip ((fun r => if r = (⟨0, 0, 100, 200⟩ : IRect) then "FULL" else "PART")
      (⟨0, 0 + 0, 100, 200 - 0⟩ : IRect)) = "FULL" ∧
    ("PART" : String) ≠ "FULL" := by
  refine ⟨by decide, by decide, by decide⟩
